import Mathlib

/-!
Verification of the half-edge topology core (`createHalfEdgeTopology`) of the
`three-use` repository.

The mesh snapshot consists of a flat vertex-position buffer and an optional
triangle index buffer.  Vertex positions never influence topology queries, so
the position buffer is modelled by its length alone (`numPos`).  JavaScript
float divisions such as `vertices.length / 3` coincide with natural division
on the documented invariant domain (buffer lengths are exact multiples), which
is how they are modelled here.
-/

/-- Mesh snapshot: length of the flat position array plus the optional
triangle index buffer (`geometry.index`). -/
structure Mesh where
  numPos : Nat
  indices : Option (List Nat)
deriving DecidableEq, Repr

/-- Number of vertices: `vertices.length / 3`. -/
def Mesh.vertexCount (m : Mesh) : Nat := m.numPos / 3

/-- Number of faces: `indices ? indices.length / 3 : vertices.length / 9`. -/
def Mesh.faceCount (m : Mesh) : Nat :=
  match m.indices with
  | some ix => ix.length / 3
  | none => m.numPos / 9

/-- The three vertex indices of a face, as in `getFaceVertices`:
implicit `[3f, 3f+1, 3f+2]` when the geometry is non-indexed, otherwise
`[indices[3f], indices[3f+1], indices[3f+2]]`.  An out-of-range read of the
index buffer is `undefined` in JavaScript; it is defaulted to `0` here and no
theorem depends on that default. -/
def Mesh.faceVerts (m : Mesh) (f : Nat) : List Nat :=
  match m.indices with
  | none => [3 * f, 3 * f + 1, 3 * f + 2]
  | some ix => [ix.getD (3 * f) 0, ix.getD (3 * f + 1) 0, ix.getD (3 * f + 2) 0]

/-- Modelled from the spec: the Adjacency Builder (`HalfEdgeMap` of
`three-bvh-csg`, whose source is not part of this repository) enumerates, for
each face in order, its three edges as half-edge descriptors.  Discovery
order is face-major, edge slots `0,1,2` within a face. -/
def Mesh.allHalfEdges (m : Mesh) : List (Nat × Nat) :=
  (List.range (3 * m.faceCount)).map (fun k => (k / 3, k % 3))

/-- Modelled from the spec: the unordered vertex-index pair keying an edge;
edge slot `e` runs between the face vertex at position `e` and the one at
position `(e+1) % 3`. -/
def Mesh.edgeKey (m : Mesh) (f e : Nat) : Nat × Nat :=
  let a := (m.faceVerts f).getD e 0
  let b := (m.faceVerts f).getD ((e + 1) % 3) 0
  (min a b, max a b)

/-- Modelled from the spec: all half-edge descriptors sharing an unordered
vertex-pair key, in discovery order. -/
def Mesh.edgeGroup (m : Mesh) (k : Nat × Nat) : List (Nat × Nat) :=
  m.allHalfEdges.filter (fun d => decide (m.edgeKey d.1 d.2 = k))

/-- Modelled from the spec: the sibling of a half-edge.  Descriptors with the
same key are paired consecutively in discovery order (the documented
deterministic policy: first with second, third with fourth, ...); a leftover
descriptor, or a descriptor in a singleton group, is a boundary edge. -/
def Mesh.sibling (m : Mesh) (f e : Nat) : Option (Nat × Nat) :=
  match (m.edgeGroup (m.edgeKey f e)).findIdx? (fun d => decide (d = (f, e))) with
  | none => none
  | some i =>
    if i % 2 = 0 then (m.edgeGroup (m.edgeKey f e))[i + 1]?
    else (m.edgeGroup (m.edgeKey f e))[i - 1]?

/-- The engine state captured by the closure of `createHalfEdgeTopology`:
the cached buffer views (`vertices`, `indices`) and the half-edge adjacency
table. -/
structure Engine where
  mesh : Mesh
  table : Nat → Nat → Option (Nat × Nat)

/-- `createHalfEdgeTopology(geometry)`: caches the buffer views and builds the
adjacency table from the snapshot. -/
def createTopology (m : Mesh) : Engine := ⟨m, m.sibling⟩

/-- `update()`: re-reads the buffer views from the geometry and rebuilds the
half-edge structure; it depends only on the geometry snapshot. -/
def Engine.update (g : Mesh) (_s : Engine) : Engine := createTopology g

/-- `getVertexCount()`. -/
def getVertexCount (s : Engine) : Nat := s.mesh.vertexCount

/-- `getFaceCount()`. -/
def getFaceCount (s : Engine) : Nat := s.mesh.faceCount

/-- `getFaceVertices(faceIndex)`. -/
def getFaceVertices (s : Engine) (f : Nat) : List Nat := s.mesh.faceVerts f

/-- `getSiblingTriangleIndex` of the half-edge map; the `-1` sentinel is
modelled as `none`. -/
def getSiblingTriangleIndex (s : Engine) (f e : Nat) : Option Nat :=
  (s.table f e).map (fun d => d.1)

/-- `getSiblingEdgeIndex` of the half-edge map; the `-1` sentinel is modelled
as `none`. -/
def getSiblingEdgeIndex (s : Engine) (f e : Nat) : Option Nat :=
  (s.table f e).map (fun d => d.2)

/-- `getFaceNeighbors(faceIndex)`: non-boundary siblings of the three edge
slots, in slot order. -/
def getFaceNeighbors (s : Engine) (f : Nat) : List Nat :=
  [0, 1, 2].filterMap (fun e => getSiblingTriangleIndex s f e)

/-- `getFaceEdges(faceIndex)`. -/
def getFaceEdges (s : Engine) (f : Nat) : List (Nat × Nat) :=
  [(f, 0), (f, 1), (f, 2)]

/-- `isFaceOnBoundary(faceIndex)`: some edge slot has no sibling. -/
def isFaceOnBoundary (s : Engine) (f : Nat) : Bool :=
  [0, 1, 2].any (fun e => (getSiblingTriangleIndex s f e).isNone)

/-- `walkAroundFace(faceIndex)`: the sibling face or `null` for each edge
slot in order. -/
def walkAroundFace (s : Engine) (f : Nat) : List (Option Nat) :=
  [0, 1, 2].map (fun e => getSiblingTriangleIndex s f e)

/-- `getEdgeFaces(faceIndex, edgeIndex)`. -/
def getEdgeFaces (s : Engine) (f e : Nat) : List Nat :=
  match getSiblingTriangleIndex s f e with
  | some sib => [f, sib]
  | none => [f]

/-- `getEdgeVertices(faceIndex, edgeIndex)`: the face vertices at positions
`edgeIndex` and `(edgeIndex+1) % 3`. -/
def getEdgeVertices (s : Engine) (f e : Nat) : Nat × Nat :=
  ((getFaceVertices s f).getD e 0, (getFaceVertices s f).getD ((e + 1) % 3) 0)

/-- `getOppositeHalfEdge(faceIndex, edgeIndex)`: the sibling descriptor when
both the sibling triangle and the sibling edge lookups are valid. -/
def getOppositeHalfEdge (s : Engine) (f e : Nat) : Option (Nat × Nat) :=
  match getSiblingTriangleIndex s f e, getSiblingEdgeIndex s f e with
  | some a, some b => some (a, b)
  | _, _ => none

/-- `isEdgeOnBoundary(faceIndex, edgeIndex)`: the sibling triangle lookup
reports no sibling. -/
def isEdgeOnBoundary (s : Engine) (f e : Nat) : Bool :=
  (getSiblingTriangleIndex s f e).isNone

/-- `getVertexIncidentFaces(vertexIndex)`: scan all faces, keep those whose
vertex triple contains the vertex. -/
def getVertexIncidentFaces (s : Engine) (v : Nat) : List Nat :=
  (List.range (getFaceCount s)).filter (fun i => decide (v ∈ getFaceVertices s i))

/-- Insertion into a JavaScript `Set` modelled on lists: append if absent,
preserving first-insertion order (`Array.from` iterates in that order). -/
def insertUniq (l : List Nat) (x : Nat) : List Nat :=
  if x ∈ l then l else l ++ [x]

/-- One step of `getVertexNeighbors`: add the other two vertices of an
incident face (the code skips the first position at which the vertex occurs). -/
def addNbrs (s : Engine) (v : Nat) (acc : List Nat) (f : Nat) : List Nat :=
  match (getFaceVertices s f).findIdx? (fun x => decide (x = v)) with
  | none => acc
  | some pos =>
    (List.range 3).foldl
      (fun a i => if i = pos then a else insertUniq a ((getFaceVertices s f).getD i 0)) acc

/-- `getVertexNeighbors(vertexIndex)`. -/
def getVertexNeighbors (s : Engine) (v : Nat) : List Nat :=
  (getVertexIncidentFaces s v).foldl (addNbrs s v) []

/-- `getVertexIncidentEdges(vertexIndex)`. -/
def getVertexIncidentEdges (s : Engine) (v : Nat) : List (Nat × Nat) :=
  (getVertexIncidentFaces s v).foldl (fun acc f =>
    match (getFaceVertices s f).findIdx? (fun x => decide (x = v)) with
    | none => acc
    | some pos => acc ++ [(f, pos), (f, (pos + 2) % 3)]) []

/-- `getVertexValence(vertexIndex)`. -/
def getVertexValence (s : Engine) (v : Nat) : Nat :=
  (getVertexNeighbors s v).length

/-- The loop body of `walkAroundVertex`, with explicit fuel.  The loop adds
the current face to the visited set, records it, finds the vertex's position
in the current face, and follows the edge slot two positions after it; it
continues only to a sibling face that exists, is incident to the vertex, and
is unvisited. -/
def walkAux (s : Engine) (v : Nat) (incident : List Nat) :
    Nat → Nat → List Nat → List Nat
  | 0, _, _ => []
  | fuel + 1, cur, visited =>
    if cur ∈ visited then []
    else
      match (getFaceVertices s cur).findIdx? (fun x => decide (x = v)) with
      | none => [cur]
      | some pos =>
        match getSiblingTriangleIndex s cur ((pos + 2) % 3) with
        | none => [cur]
        | some nf =>
          if nf ∈ incident ∧ nf ∉ cur :: visited then
            cur :: walkAux s v incident fuel nf (cur :: visited)
          else [cur]

/-- `walkAroundVertex(vertexIndex, startFaceIndex?)`: empty when the vertex
has no incident face, otherwise the loop starting from the supplied start
face (default: the first incident face). -/
def walkAroundVertex (s : Engine) (v : Nat) (st : Option Nat) : List Nat :=
  match getVertexIncidentFaces s v with
  | [] => []
  | f0 :: _ =>
    walkAux s v (getVertexIncidentFaces s v)
      ((getVertexIncidentFaces s v).length + 2) (st.getD f0) []

/-- The entries pushed while expanding a dequeued vertex in
`findShortestPath`: unvisited neighbors, in neighbor order, each with the
extended path (the vertex itself was just marked visited). -/
def bfsChildren (s : Engine) (v : Nat) (p : List Nat) (visited : List Nat) :
    List (Nat × List Nat) :=
  ((getVertexNeighbors s v).filter (fun n => decide (n ∉ v :: visited))).map
    (fun n => (n, p ++ [n]))

/-- The BFS loop of `findShortestPath` with explicit fuel: dequeue from the
front, skip already-visited vertices, mark at dequeue time, return the path
on reaching the target, otherwise enqueue unvisited neighbors at the back.
The outer `none` means the fuel ran out (proved unreachable for the fuel used
by `findShortestPath`). -/
def bfsAux (s : Engine) (bV : Nat) :
    Nat → List (Nat × List Nat) → List Nat → Option (Option (List Nat))
  | 0, _, _ => none
  | _ + 1, [], _ => some none
  | fuel + 1, (v, p) :: rest, visited =>
    if v ∈ visited then bfsAux s bV fuel rest visited
    else if v = bV then some (some p)
    else bfsAux s bV fuel (rest ++ bfsChildren s v p visited) (v :: visited)

/-- All vertex indices occurring in some face, used only to bound the BFS
fuel. -/
def allFaceVerts (s : Engine) : List Nat :=
  (List.range (getFaceCount s)).foldr (fun f acc => getFaceVertices s f ++ acc) []

/-- The vertices the BFS queue can ever contain: the start vertex and any
face vertex. -/
def candVerts (s : Engine) (a : Nat) : List Nat := a :: allFaceVerts s

/-- Fuel that provably suffices for the BFS loop to run to completion. -/
def bfsFuel (s : Engine) (a : Nat) : Nat :=
  2 + (3 * getFaceCount s + 1) * (candVerts s a).length

/-- `findShortestPath(startVertex, endVertex)`. -/
def findShortestPath (s : Engine) (a b : Nat) : Option (List Nat) :=
  if a = b then some [a]
  else
    match bfsAux s b (bfsFuel s a) [(a, [a])] [] with
    | some r => r
    | none => none

/-- One-triangle non-indexed mesh: 3 vertices, 1 face. -/
def oneTriM : Mesh := ⟨9, none⟩

/-- Two triangles sharing edge `(0,2)`: the quad `(0,1,2)`, `(0,2,3)`. -/
def quadM : Mesh := ⟨12, some [0, 1, 2, 0, 2, 3]⟩

/-- Number of faces of `incident` not yet visited; the termination measure of
the `walkAroundVertex` loop. -/
def notVisitedCount (incident visited : List Nat) : Nat :=
  (incident.filter (fun x => decide (x ∉ visited))).length

/-- One step of the walk around `v`: from face `x`, the vertex position of
`v` in `x` is found and the sibling across edge slot `(pos + 2) % 3` is `y`. -/
def WalkStep (s : Engine) (v x y : Nat) : Prop :=
  ∃ pos, (getFaceVertices s x).findIdx? (fun t => decide (t = v)) = some pos ∧
    getSiblingTriangleIndex s x ((pos + 2) % 3) = some y

/-- Correctness of a walk list `L` around vertex `v` started with visited set
`visited`: consecutive faces are related by `WalkStep`, every stepped-to face
is incident and not previously seen, and the walk stops only when the next
face is boundary (no `WalkStep` successor exists), not incident, or already
seen. -/
def WalkOk (s : Engine) (v : Nat) (incident visited L : List Nat) : Prop :=
  L ≠ []
  ∧ (∀ i, i + 1 < L.length →
      WalkStep s v (L.getD i 0) (L.getD (i + 1) 0)
      ∧ L.getD (i + 1) 0 ∈ incident
      ∧ L.getD (i + 1) 0 ∉ visited ++ L.take (i + 1))
  ∧ (∀ last y, L.getLast? = some last → WalkStep s v last y →
      y ∉ incident ∨ y ∈ visited ++ L)

/-- `walkAroundVertex` run with surplus fuel, used to state that the loop's
result is independent of the fuel bound (termination). -/
def walkAroundVertexFuel (s : Engine) (v : Nat) (st : Option Nat) (extra : Nat) :
    List Nat :=
  match getVertexIncidentFaces s v with
  | [] => []
  | f0 :: _ =>
    walkAux s v (getVertexIncidentFaces s v)
      ((getVertexIncidentFaces s v).length + 2 + extra) (st.getD f0) []

/-- The edge relation of the vertex-adjacency graph induced by
`getVertexNeighbors`. -/
def Adjb (s : Engine) (u w : Nat) : Prop := w ∈ getVertexNeighbors s u

/-- A walk in the vertex-adjacency graph from `a` to `b`: nonempty, starts at
`a`, ends at `b`, and every consecutive pair is adjacent. -/
def IsVPath (s : Engine) (a b : Nat) (p : List Nat) : Prop :=
  p.head? = some a ∧ p.getLast? = some b ∧ p.Chain' (Adjb s)

/-- Reachability in the vertex-adjacency graph. -/
def Reaches (s : Engine) (a b : Nat) : Prop := ∃ p, IsVPath s a b p

/-- `n` is the minimal node count of a walk from `a` to `u`. -/
def minLen (s : Engine) (a u n : Nat) : Prop :=
  (∃ p, IsVPath s a u p ∧ p.length = n) ∧ ∀ p, IsVPath s a u p → n ≤ p.length

/-- The breadth-first-search invariant at a given level: the queue splits
into a current-level part `A` (paths of `lvl+1` nodes) and a next-level part
`B` (paths of `lvl+2` nodes); every queue entry carries a genuine walk from
`a`; visited vertices have distance at most `lvl`; strictly closer vertices
are all visited; unvisited vertices at distance `lvl` sit in `A`; unvisited
vertices at distance `lvl+1` sit in `B` or have an unvisited parent in `A`;
and the target `b` is unvisited. -/
def BfsInvAt (s : Engine) (a b lvl : Nat) (A B : List (Nat × List Nat))
    (visited : List Nat) : Prop :=
  (∀ en ∈ A ++ B, IsVPath s a en.1 en.2)
  ∧ (∀ en ∈ A, en.2.length = lvl + 1)
  ∧ (∀ en ∈ B, en.2.length = lvl + 2)
  ∧ (∀ w ∈ visited, ∃ d, d ≤ lvl ∧ minLen s a w (d + 1))
  ∧ (∀ u d, d < lvl → minLen s a u (d + 1) → u ∈ visited)
  ∧ (∀ u, minLen s a u (lvl + 1) → u ∉ visited → ∃ p, (u, p) ∈ A)
  ∧ (∀ u, minLen s a u (lvl + 2) → u ∉ visited →
      (∃ p, (u, p) ∈ B) ∨ ∃ en ∈ A, en.1 ∉ visited ∧ Adjb s en.1 u)
  ∧ b ∉ visited

/-- The breadth-first-search invariant for a queue/visited state. -/
def BfsInv (s : Engine) (a b : Nat) (queue : List (Nat × List Nat))
    (visited : List Nat) : Prop :=
  ∃ lvl A B, queue = A ++ B ∧ BfsInvAt s a b lvl A B visited

/-- Number of candidate vertices not yet visited, for the BFS fuel bound. -/
def unvisitedCount (s : Engine) (a : Nat) (visited : List Nat) : Nat :=
  ((candVerts s a).filter (fun x => decide (x ∉ visited))).length

/-- The strictly decreasing measure of the BFS loop. -/
def bfsMeasure (s : Engine) (a : Nat) (queue : List (Nat × List Nat))
    (visited : List Nat) : Nat :=
  queue.length + (3 * getFaceCount s + 1) * unvisitedCount s a visited

/-! ### Basic facts about the mesh model -/

theorem faceVerts_length (m : Mesh) (f : Nat) : (m.faceVerts f).length = 3 := by
  unfold Mesh.faceVerts
  cases m.indices <;> rfl

theorem Mesh.faceCount_eq_none (m : Mesh) (h : m.indices = none) :
    m.faceCount = m.numPos / 9 := by
  simp [Mesh.faceCount, h]

theorem Mesh.faceCount_eq_some (m : Mesh) (ix : List Nat) (h : m.indices = some ix) :
    m.faceCount = ix.length / 3 := by
  simp [Mesh.faceCount, h]

theorem faceVerts_lt_vertexCount (m : Mesh)
    (hix : ∀ x ∈ m.indices.getD [], x < m.vertexCount)
    {f : Nat} (hf : f < m.faceCount) :
    ∀ x ∈ m.faceVerts f, x < m.vertexCount := by
  intro x hx
  unfold Mesh.faceVerts at hx
  cases hmi : m.indices with
  | none =>
    rw [hmi] at hx
    rw [Mesh.faceCount_eq_none m hmi] at hf
    have h1 : m.numPos / 9 = m.numPos / 3 / 3 := by
      rw [Nat.div_div_eq_div_mul]
    have h2 : m.numPos / 3 / 3 * 3 ≤ m.numPos / 3 := Nat.div_mul_le_self _ 3
    unfold Mesh.vertexCount
    simp only [List.mem_cons, List.mem_singleton, List.not_mem_nil, or_false] at hx
    rcases hx with rfl | rfl | rfl <;> omega
  | some ix =>
    rw [hmi] at hx
    rw [Mesh.faceCount_eq_some m ix hmi] at hf
    have hlen : ix.length / 3 * 3 ≤ ix.length := Nat.div_mul_le_self _ 3
    have hmem : x ∈ ix := by
      simp only [List.mem_cons, List.mem_singleton, List.not_mem_nil, or_false] at hx
      have hb : ∀ k, k < ix.length → ix.getD k 0 ∈ ix := by
        intro k hk
        rw [List.getD_eq_getElem?_getD, List.getElem?_eq_getElem hk]
        exact List.getElem_mem hk
      rcases hx with rfl | rfl | rfl
      · exact hb _ (by omega)
      · exact hb _ (by omega)
      · exact hb _ (by omega)
    have := hix x (by rw [hmi]; exact hmem)
    exact this

theorem incidentFaces_nil_of_ge (m : Mesh)
    (hix : ∀ x ∈ m.indices.getD [], x < m.vertexCount)
    {v : Nat} (hv : m.vertexCount ≤ v) :
    getVertexIncidentFaces (createTopology m) v = [] := by
  unfold getVertexIncidentFaces
  rw [List.filter_eq_nil_iff]
  intro f hf
  simp only [decide_eq_true_eq]
  intro hmem
  have hflt : f < m.faceCount := by
    simpa [getFaceCount, createTopology] using List.mem_range.mp hf
  have := faceVerts_lt_vertexCount m hix hflt v (by simpa [getFaceVertices, createTopology] using hmem)
  omega

/-! ### C1: bounds checking.
The code performs no bounds checks whatsoever and has no error channel:
out-of-range queries silently return empty results (vertex queries) or the
implicit garbage triple (face queries on a non-indexed mesh). -/

/-- C1 counterexample: on the one-triangle non-indexed mesh
(`faceCount = 1`, `vertexCount = 3`), querying face `5` silently returns the
garbage triple `[15, 16, 17]` and querying vertex `99` silently returns the
empty list; no `IndexOutOfRange` failure exists anywhere in the API. -/
theorem c1_counterexample :
    getFaceCount (createTopology oneTriM) = 1
    ∧ getVertexCount (createTopology oneTriM) = 3
    ∧ getFaceVertices (createTopology oneTriM) 5 = [15, 16, 17]
    ∧ getVertexIncidentFaces (createTopology oneTriM) 99 = [] := by
  refine ⟨rfl, rfl, rfl, ?_⟩
  decide

/-- C1 (amended): no query checks index bounds or fails; all queries are
total.  For a mesh whose index values respect the documented invariant, every
vertex query at an out-of-range vertex silently returns an empty (or zero)
result, and `getFaceVertices` on a non-indexed mesh returns the implicit
triple `[3f, 3f+1, 3f+2]` for every face index, in or out of range, rather
than failing with an `IndexOutOfRange` error. -/
theorem c1_amended (m : Mesh) (v : Nat)
    (hix : ∀ x ∈ m.indices.getD [], x < m.vertexCount)
    (hv : m.vertexCount ≤ v) :
    getVertexIncidentFaces (createTopology m) v = []
    ∧ getVertexNeighbors (createTopology m) v = []
    ∧ getVertexIncidentEdges (createTopology m) v = []
    ∧ getVertexValence (createTopology m) v = 0
    ∧ (∀ f, m.indices = none →
        getFaceVertices (createTopology m) f = [3 * f, 3 * f + 1, 3 * f + 2]) := by
  have hnil := incidentFaces_nil_of_ge m hix hv
  refine ⟨hnil, ?_, ?_, ?_, ?_⟩
  · unfold getVertexNeighbors
    rw [hnil]
    rfl
  · unfold getVertexIncidentEdges
    rw [hnil]
    rfl
  · unfold getVertexValence getVertexNeighbors
    rw [hnil]
    rfl
  · intro f hf
    simp [getFaceVertices, createTopology, Mesh.faceVerts, hf]

/-- C1 amended witness: the quad mesh satisfies the index invariant, vertex
`7` is out of range, and the amended theorem applies. -/
theorem c1_amended_witness :
    (∀ x ∈ (quadM.indices).getD [], x < quadM.vertexCount)
    ∧ quadM.vertexCount ≤ 7
    ∧ (getVertexIncidentFaces (createTopology quadM) 7 = []
      ∧ getVertexNeighbors (createTopology quadM) 7 = []
      ∧ getVertexIncidentEdges (createTopology quadM) 7 = []
      ∧ getVertexValence (createTopology quadM) 7 = 0
      ∧ (∀ f, quadM.indices = none →
          getFaceVertices (createTopology quadM) f = [3 * f, 3 * f + 1, 3 * f + 2])) :=
  ⟨by decide, by decide, c1_amended quadM 7 (by decide) (by decide)⟩

/-! ### C6: edge vertices -/

/-- C6: `getEdgeVertices(f, e)` returns the face vertices at positions `e`
and `(e+1) % 3`, where the face vertex triple is `indices[3f .. 3f+2]` for an
indexed mesh and `[3f, 3f+1, 3f+2]` for a non-indexed one. -/
theorem c6_edgeVertices (m : Mesh) (f e : Nat) (he : e < 3) :
    getEdgeVertices (createTopology m) f e =
      ((getFaceVertices (createTopology m) f).getD e 0,
       (getFaceVertices (createTopology m) f).getD ((e + 1) % 3) 0)
    ∧ getEdgeVertices (createTopology m) f e =
      (match m.indices with
       | none => (3 * f + e, 3 * f + (e + 1) % 3)
       | some ix => (ix.getD (3 * f + e) 0, ix.getD (3 * f + (e + 1) % 3) 0)) := by
  refine ⟨rfl, ?_⟩
  cases hmi : m.indices with
  | none =>
    interval_cases e <;>
      simp [getEdgeVertices, getFaceVertices, createTopology, Mesh.faceVerts, hmi]
  | some ix =>
    interval_cases e <;>
      simp [getEdgeVertices, getFaceVertices, createTopology, Mesh.faceVerts, hmi]

/-- C6 witness: instantiated on the quad mesh at face `0`, edge slot `2`. -/
theorem c6_witness :
    (2 : Nat) < 3
    ∧ (getEdgeVertices (createTopology quadM) 0 2 =
        ((getFaceVertices (createTopology quadM) 0).getD 2 0,
         (getFaceVertices (createTopology quadM) 0).getD ((2 + 1) % 3) 0)
      ∧ getEdgeVertices (createTopology quadM) 0 2 =
        (match quadM.indices with
         | none => (3 * 0 + 2, 3 * 0 + (2 + 1) % 3)
         | some ix => (ix.getD (3 * 0 + 2) 0, ix.getD (3 * 0 + (2 + 1) % 3) 0))) :=
  ⟨by decide, c6_edgeVertices quadM 0 2 (by decide)⟩

/-! ### C4: boundary test agrees with opposite-half-edge lookup -/

/-- C4: `isEdgeOnBoundary(f, e)` is true exactly when
`getOppositeHalfEdge(f, e)` is `none`.  `isEdgeOnBoundary` tests only the
sibling-triangle lookup while `getOppositeHalfEdge` additionally requires the
sibling-edge lookup; in the adjacency table a half-edge either has a full
sibling descriptor or none, so the two lookups succeed or fail together. -/
theorem c4_boundary_iff_no_opposite (m : Mesh) (f e : Nat)
    (hf : f < getFaceCount (createTopology m)) (he : e < 3) :
    isEdgeOnBoundary (createTopology m) f e = true
      ↔ getOppositeHalfEdge (createTopology m) f e = none := by
  cases h : (createTopology m).table f e with
  | none =>
    simp [isEdgeOnBoundary, getOppositeHalfEdge, getSiblingTriangleIndex,
      getSiblingEdgeIndex, h]
  | some d =>
    simp [isEdgeOnBoundary, getOppositeHalfEdge, getSiblingTriangleIndex,
      getSiblingEdgeIndex, h]

/-- C4 witness: on the quad mesh, slot `(0,0)` is a boundary edge and slot
`(0,2)` (the shared diagonal) is not; the theorem applies at `(0,0)`. -/
theorem c4_witness :
    (0 : Nat) < getFaceCount (createTopology quadM)
    ∧ (0 : Nat) < 3
    ∧ (isEdgeOnBoundary (createTopology quadM) 0 0 = true
        ↔ getOppositeHalfEdge (createTopology quadM) 0 0 = none) :=
  ⟨by decide, by decide, c4_boundary_iff_no_opposite quadM 0 0 (by decide) (by decide)⟩

/-! ### C7: rebuild idempotence -/

/-- C7: `update()` recomputes the engine state from the geometry snapshot
alone, so a second consecutive rebuild on an unchanged snapshot leaves every
query result (face, edge, vertex, traversal and count queries) unchanged. -/
theorem c7_rebuild_idempotent (g : Mesh) (s0 : Engine) :
    (∀ f, getFaceVertices (Engine.update g (Engine.update g s0)) f
        = getFaceVertices (Engine.update g s0) f)
    ∧ (∀ f, getFaceNeighbors (Engine.update g (Engine.update g s0)) f
        = getFaceNeighbors (Engine.update g s0) f)
    ∧ (∀ f, getFaceEdges (Engine.update g (Engine.update g s0)) f
        = getFaceEdges (Engine.update g s0) f)
    ∧ (∀ f, isFaceOnBoundary (Engine.update g (Engine.update g s0)) f
        = isFaceOnBoundary (Engine.update g s0) f)
    ∧ (∀ f, walkAroundFace (Engine.update g (Engine.update g s0)) f
        = walkAroundFace (Engine.update g s0) f)
    ∧ (∀ f e, getEdgeFaces (Engine.update g (Engine.update g s0)) f e
        = getEdgeFaces (Engine.update g s0) f e)
    ∧ (∀ f e, getEdgeVertices (Engine.update g (Engine.update g s0)) f e
        = getEdgeVertices (Engine.update g s0) f e)
    ∧ (∀ f e, getOppositeHalfEdge (Engine.update g (Engine.update g s0)) f e
        = getOppositeHalfEdge (Engine.update g s0) f e)
    ∧ (∀ f e, isEdgeOnBoundary (Engine.update g (Engine.update g s0)) f e
        = isEdgeOnBoundary (Engine.update g s0) f e)
    ∧ (∀ v, getVertexIncidentFaces (Engine.update g (Engine.update g s0)) v
        = getVertexIncidentFaces (Engine.update g s0) v)
    ∧ (∀ v, getVertexNeighbors (Engine.update g (Engine.update g s0)) v
        = getVertexNeighbors (Engine.update g s0) v)
    ∧ (∀ v, getVertexIncidentEdges (Engine.update g (Engine.update g s0)) v
        = getVertexIncidentEdges (Engine.update g s0) v)
    ∧ (∀ v, getVertexValence (Engine.update g (Engine.update g s0)) v
        = getVertexValence (Engine.update g s0) v)
    ∧ (∀ v st, walkAroundVertex (Engine.update g (Engine.update g s0)) v st
        = walkAroundVertex (Engine.update g s0) v st)
    ∧ (∀ a b, findShortestPath (Engine.update g (Engine.update g s0)) a b
        = findShortestPath (Engine.update g s0) a b)
    ∧ getVertexCount (Engine.update g (Engine.update g s0))
        = getVertexCount (Engine.update g s0)
    ∧ getFaceCount (Engine.update g (Engine.update g s0))
        = getFaceCount (Engine.update g s0) :=
  ⟨fun _ => rfl, fun _ => rfl, fun _ => rfl, fun _ => rfl, fun _ => rfl,
   fun _ _ => rfl, fun _ _ => rfl, fun _ _ => rfl, fun _ _ => rfl,
   fun _ => rfl, fun _ => rfl, fun _ => rfl, fun _ => rfl,
   fun _ _ => rfl, fun _ _ => rfl, rfl, rfl⟩

/-! ### C3: symmetry of the sibling pairing -/

theorem getOpposite_create (m : Mesh) (f e : Nat) :
    getOppositeHalfEdge (createTopology m) f e = m.sibling f e := by
  cases h : m.sibling f e with
  | none =>
    simp [getOppositeHalfEdge, getSiblingTriangleIndex, getSiblingEdgeIndex,
      createTopology, h]
  | some d =>
    simp [getOppositeHalfEdge, getSiblingTriangleIndex, getSiblingEdgeIndex,
      createTopology, h]

theorem allHalfEdges_nodup (m : Mesh) : m.allHalfEdges.Nodup := by
  unfold Mesh.allHalfEdges
  refine List.Nodup.map ?_ (List.nodup_range _)
  intro k j h
  have h1 : k / 3 = j / 3 := congrArg Prod.fst h
  have h2 : k % 3 = j % 3 := congrArg Prod.snd h
  omega

theorem edgeGroup_nodup (m : Mesh) (k : Nat × Nat) : (m.edgeGroup k).Nodup :=
  (allHalfEdges_nodup m).filter _

theorem edgeGroup_key (m : Mesh) {k : Nat × Nat} {d : Nat × Nat}
    (h : d ∈ m.edgeGroup k) : m.edgeKey d.1 d.2 = k := by
  unfold Mesh.edgeGroup at h
  have := List.of_mem_filter h
  simpa using this

theorem nodup_findIdx?_of_getElem? {l : List (Nat × Nat)} (hnd : l.Nodup)
    {j : Nat} {x : Nat × Nat} (h : l[j]? = some x) :
    l.findIdx? (fun y => decide (y = x)) = some j := by
  rw [List.getElem?_eq_some] at h
  obtain ⟨hj, hx⟩ := h
  rw [List.findIdx?_eq_some_iff_getElem]
  refine ⟨hj, by simp [hx], ?_⟩
  intro i hij
  simp only [decide_eq_true_eq]
  intro hcontra
  have : l[i] = l[j] := by rw [hx, hcontra]
  have := (List.Nodup.getElem_inj_iff hnd).mp this
  omega

/-- C3: whenever `getOppositeHalfEdge(f, e)` yields a sibling descriptor,
applying `getOppositeHalfEdge` to that descriptor yields `(f, e)` back: the
consecutive-in-discovery-order pairing recorded by the adjacency builder is
symmetric. -/
theorem c3_opposite_involutive (m : Mesh) (f e f' e' : Nat)
    (hf : f < getFaceCount (createTopology m)) (he : e < 3)
    (h : getOppositeHalfEdge (createTopology m) f e = some (f', e')) :
    getOppositeHalfEdge (createTopology m) f' e' = some (f, e) := by
  rw [getOpposite_create] at h ⊢
  unfold Mesh.sibling at h
  set g := m.edgeGroup (m.edgeKey f e) with hg
  rcases hfi : g.findIdx? (fun d => decide (d = (f, e))) with _ | i
  · rw [hfi] at h
    exact absurd h (by simp)
  rw [hfi] at h
  dsimp only at h
  have hnd : g.Nodup := edgeGroup_nodup m _
  have hgi : g[i]? = some (f, e) := by
    rw [List.findIdx?_eq_some_iff_getElem] at hfi
    obtain ⟨hil, hpi, _⟩ := hfi
    simp only [decide_eq_true_eq] at hpi
    rw [List.getElem?_eq_some]
    exact ⟨hil, hpi⟩
  have hmem : (f', e') ∈ g := by
    by_cases hpar : i % 2 = 0
    · rw [if_pos hpar] at h
      exact List.getElem?_mem h
    · rw [if_neg hpar] at h
      exact List.getElem?_mem h
  have hkey : m.edgeKey f' e' = m.edgeKey f e := edgeGroup_key m hmem
  have hgroup : m.edgeGroup (m.edgeKey f' e') = g := by rw [hkey]
  unfold Mesh.sibling
  rw [hgroup]
  by_cases hpar : i % 2 = 0
  · rw [if_pos hpar] at h
    have hidx : g.findIdx? (fun d => decide (d = (f', e'))) = some (i + 1) :=
      nodup_findIdx?_of_getElem? hnd h
    rw [hidx]
    dsimp only
    have : ¬((i + 1) % 2 = 0) := by omega
    rw [if_neg this]
    simpa using hgi
  · rw [if_neg hpar] at h
    have hipos : 1 ≤ i := by omega
    have hidx : g.findIdx? (fun d => decide (d = (f', e'))) = some (i - 1) :=
      nodup_findIdx?_of_getElem? hnd h
    rw [hidx]
    dsimp only
    have : (i - 1) % 2 = 0 := by omega
    rw [if_pos this]
    have : i - 1 + 1 = i := by omega
    rw [this]
    exact hgi

/-- C3 witness: on the quad mesh the shared diagonal pairs slots `(0,2)` and
`(1,0)`; the theorem applies at `(0,2)`. -/
theorem c3_witness :
    (0 : Nat) < getFaceCount (createTopology quadM)
    ∧ (2 : Nat) < 3
    ∧ getOppositeHalfEdge (createTopology quadM) 0 2 = some (1, 0)
    ∧ getOppositeHalfEdge (createTopology quadM) 1 0 = some (0, 2) :=
  ⟨by decide, by decide, by decide,
   c3_opposite_involutive quadM 0 2 1 0 (by decide) (by decide) (by decide)⟩

/-! ### Filter-counting lemmas for the termination measures -/

theorem length_filter_le_of_imp {l : List Nat} {p q : Nat → Bool}
    (h : ∀ x, q x = true → p x = true) :
    (l.filter q).length ≤ (l.filter p).length := by
  induction l with
  | nil => simp
  | cons a t ih =>
    by_cases hq : q a = true
    · rw [List.filter_cons_of_pos hq, List.filter_cons_of_pos (h a hq)]
      simpa using ih
    · rw [List.filter_cons_of_neg (by simpa using hq)]
      by_cases hp : p a = true
      · rw [List.filter_cons_of_pos hp]
        simp only [List.length_cons]
        omega
      · rw [List.filter_cons_of_neg (by simpa using hp)]
        exact ih

theorem length_filter_lt_of_mem {l : List Nat} {p q : Nat → Bool}
    (h : ∀ x, q x = true → p x = true) {c : Nat}
    (hc : c ∈ l) (hpc : p c = true) (hqc : q c = false) :
    (l.filter q).length < (l.filter p).length := by
  induction l with
  | nil => simp at hc
  | cons a t ih =>
    rcases List.mem_cons.mp hc with rfl | hct
    · rw [List.filter_cons_of_pos hpc, List.filter_cons_of_neg (by simp [hqc])]
      have := length_filter_le_of_imp (l := t) h
      simp only [List.length_cons]
      omega
    · by_cases hq : q a = true
      · rw [List.filter_cons_of_pos hq, List.filter_cons_of_pos (h a hq)]
        simpa using ih hct
      · rw [List.filter_cons_of_neg (by simpa using hq)]
        by_cases hp : p a = true
        · rw [List.filter_cons_of_pos hp]
          have := ih hct
          simp only [List.length_cons]
          omega
        · rw [List.filter_cons_of_neg (by simpa using hp)]
          exact ih hct

theorem notVisitedCount_cons_le (incident : List Nat) (c : Nat)
    (visited : List Nat) :
    notVisitedCount incident (c :: visited) ≤ notVisitedCount incident visited := by
  apply length_filter_le_of_imp
  intro x hx
  simp only [decide_eq_true_eq, List.mem_cons, not_or] at hx ⊢
  exact hx.2

theorem notVisitedCount_cons_lt (incident : List Nat) {c : Nat}
    (visited : List Nat) (hc : c ∈ incident) (hnv : c ∉ visited) :
    notVisitedCount incident (c :: visited) < notVisitedCount incident visited := by
  apply length_filter_lt_of_mem (c := c)
  · intro x hx
    simp only [decide_eq_true_eq, List.mem_cons, not_or] at hx ⊢
    exact hx.2
  · exact hc
  · simpa using hnv
  · simp

/-! ### C5: the walk around a vertex -/

theorem walkAux_succ (s : Engine) (v : Nat) (incident : List Nat)
    (fuel cur : Nat) (visited : List Nat) :
    walkAux s v incident (fuel + 1) cur visited =
      if cur ∈ visited then []
      else
        match (getFaceVertices s cur).findIdx? (fun x => decide (x = v)) with
        | none => [cur]
        | some pos =>
          match getSiblingTriangleIndex s cur ((pos + 2) % 3) with
          | none => [cur]
          | some nf =>
            if nf ∈ incident ∧ nf ∉ cur :: visited then
              cur :: walkAux s v incident fuel nf (cur :: visited)
            else [cur] := rfl

theorem walkAux_fuel_eq (s : Engine) (v : Nat) (incident : List Nat) :
    ∀ fuel1 fuel2 cur visited,
    notVisitedCount incident visited + 1 ≤ fuel1 →
    notVisitedCount incident visited + 1 ≤ fuel2 →
    (cur ∈ incident ∨ (notVisitedCount incident visited + 2 ≤ fuel1
      ∧ notVisitedCount incident visited + 2 ≤ fuel2)) →
    walkAux s v incident fuel1 cur visited = walkAux s v incident fuel2 cur visited := by
  intro fuel1
  induction fuel1 with
  | zero => intro fuel2 cur visited h1 _ _; omega
  | succ a ih =>
    intro fuel2 cur visited h1 h2 hdisj
    rcases fuel2 with _ | b
    · omega
    rw [walkAux_succ, walkAux_succ]
    by_cases hv : cur ∈ visited
    · rw [if_pos hv, if_pos hv]
    rw [if_neg hv, if_neg hv]
    rcases hfi : (getFaceVertices s cur).findIdx? (fun x => decide (x = v)) with _ | pos
    · rfl
    dsimp only
    rcases hsib : getSiblingTriangleIndex s cur ((pos + 2) % 3) with _ | nf
    · rfl
    dsimp only
    by_cases hcond : nf ∈ incident ∧ nf ∉ cur :: visited
    · rw [if_pos hcond, if_pos hcond]
      have hrec : walkAux s v incident a nf (cur :: visited)
          = walkAux s v incident b nf (cur :: visited) := by
        apply ih
        · rcases hdisj with hcur | ⟨hb1, _⟩
          · have := notVisitedCount_cons_lt incident visited hcur hv
            omega
          · have := notVisitedCount_cons_le incident cur visited
            omega
        · rcases hdisj with hcur | ⟨_, hb2⟩
          · have := notVisitedCount_cons_lt incident visited hcur hv
            omega
          · have := notVisitedCount_cons_le incident cur visited
            omega
        · exact Or.inl hcond.1
      rw [hrec]
    · rw [if_neg hcond, if_neg hcond]

theorem mem_shuffle (y c : Nat) (vis X : List Nat) :
    y ∈ (c :: vis) ++ X ↔ y ∈ vis ++ (c :: X) := by
  simp only [List.mem_append, List.mem_cons]
  tauto

theorem walkAux_spec (s : Engine) (v : Nat) (incident : List Nat) :
    ∀ fuel cur visited,
    cur ∉ visited →
    notVisitedCount incident visited + 1 ≤ fuel →
    (cur ∈ incident ∨ notVisitedCount incident visited + 2 ≤ fuel) →
    (walkAux s v incident fuel cur visited).head? = some cur
    ∧ WalkOk s v incident visited (walkAux s v incident fuel cur visited) := by
  intro fuel
  induction fuel with
  | zero => intro cur visited _ h1 _; omega
  | succ a ih =>
    intro cur visited hcv h1 hdisj
    rw [walkAux_succ, if_neg hcv]
    rcases hfi : (getFaceVertices s cur).findIdx? (fun x => decide (x = v)) with _ | pos
    · refine ⟨rfl, ?_, ?_, ?_⟩
      · simp
      · intro i hi
        simp at hi
      · intro last y hlast hstep
        simp only [List.getLast?_singleton, Option.some.injEq] at hlast
        obtain ⟨pos', hfi', _⟩ := hstep
        rw [← hlast, hfi] at hfi'
        exact absurd hfi' (by simp)
    dsimp only
    rcases hsib : getSiblingTriangleIndex s cur ((pos + 2) % 3) with _ | nf
    · refine ⟨rfl, ?_, ?_, ?_⟩
      · simp
      · intro i hi
        simp at hi
      · intro last y hlast hstep
        simp only [List.getLast?_singleton, Option.some.injEq] at hlast
        obtain ⟨pos', hfi', hsib'⟩ := hstep
        rw [← hlast, hfi] at hfi'
        have : pos' = pos := by simpa using hfi'.symm
        rw [← hlast, this, hsib] at hsib'
        exact absurd hsib' (by simp)
    dsimp only
    by_cases hcond : nf ∈ incident ∧ nf ∉ cur :: visited
    · rw [if_pos hcond]
      have hrec := ih nf (cur :: visited) hcond.2 ?fa ?fb
      case fa =>
        rcases hdisj with hcur | hb
        · have := notVisitedCount_cons_lt incident visited hcur hcv
          omega
        · have := notVisitedCount_cons_le incident cur visited
          omega
      case fb => exact Or.inl hcond.1
      obtain ⟨hhead, hne, hsteps, hstop⟩ := hrec
      set L2 := walkAux s v incident a nf (cur :: visited) with hL2
      refine ⟨rfl, ?_, ?_, ?_⟩
      · simp
      · intro i hi
        rcases i with _ | j
        · have hget1 : (cur :: L2).getD 1 0 = nf := by
            rcases hL2e : L2 with _ | ⟨h2, t2⟩
            · rw [hL2e] at hne; exact absurd rfl hne
            · rw [hL2e] at hhead
              simp at hhead
              simp [hL2e, hhead]
          refine ⟨?_, ?_, ?_⟩
          · rw [List.getD_cons_zero, hget1]
            exact ⟨pos, hfi, hsib⟩
          · rw [hget1]; exact hcond.1
          · rw [hget1]
            simp only [List.take_succ_cons, List.take_zero]
            intro hmem
            rw [List.mem_append] at hmem
            rcases hmem with hmem | hmem
            · exact hcond.2 (List.mem_cons_of_mem _ hmem)
            · simp at hmem
              rw [hmem] at hcond
              exact hcond.2 (List.mem_cons_self _ _)
        · have hi' : j + 1 < L2.length := by
            simp only [List.length_cons] at hi
            omega
          obtain ⟨hws, hinc, hnm⟩ := hsteps j hi'
          refine ⟨?_, ?_, ?_⟩
          · simpa using hws
          · simpa using hinc
          · simp only [List.getD_cons_succ, List.take_succ_cons]
            intro hmem
            rw [← mem_shuffle] at hmem
            exact hnm (by simpa using hmem)
      · intro last y hlast hstep
        have hlast2 : L2.getLast? = some last := by
          rcases hL2e : L2 with _ | ⟨h2, t2⟩
          · rw [hL2e] at hne; exact absurd rfl hne
          · rw [hL2e] at hlast
            simpa [List.getLast?_cons_cons] using hlast
        rcases hstop last y hlast2 hstep with hni | hm
        · exact Or.inl hni
        · right
          simp only [List.mem_append, List.mem_cons] at hm ⊢
          tauto
    · rw [if_neg hcond]
      refine ⟨rfl, ?_, ?_, ?_⟩
      · simp
      · intro i hi
        simp at hi
      · intro last y hlast hstep
        simp only [List.getLast?_singleton, Option.some.injEq] at hlast
        obtain ⟨pos', hfi', hsib'⟩ := hstep
        rw [← hlast, hfi] at hfi'
        have hpp : pos' = pos := by simpa using hfi'.symm
        rw [← hlast, hpp, hsib] at hsib'
        have hynf : y = nf := by simpa using hsib'.symm
        push_neg at hcond
        by_cases hin : nf ∈ incident
        · right
          have := hcond hin
          rw [hynf]
          simp only [List.mem_append, List.mem_singleton]
          rcases List.mem_cons.mp this with h | h
          · exact Or.inr h
          · exact Or.inl h
        · left
          rw [hynf]
          exact hin

theorem notVisitedCount_le_length (incident visited : List Nat) :
    notVisitedCount incident visited ≤ incident.length :=
  List.length_filter_le _ _

/-- C5: for every valid vertex and any choice of start face, the walk around
the vertex terminates (its result does not change when the loop is allowed
any amount of extra fuel); it is empty exactly when the vertex has no
incident face; otherwise it starts at the chosen start face (default: first
incident face), each step crosses the edge slot two positions after the
vertex's position in the current face to an incident, unvisited sibling, and
the walk stops only when the next face is boundary, not incident to the
vertex, or already visited (`WalkOk`). -/
theorem c5_walkAroundVertex (m : Mesh) (v : Nat) (st : Option Nat)
    (hv : v < getVertexCount (createTopology m)) :
    (∀ extra, walkAroundVertexFuel (createTopology m) v st extra
      = walkAroundVertex (createTopology m) v st)
    ∧ (getVertexIncidentFaces (createTopology m) v = [] →
        walkAroundVertex (createTopology m) v st = [])
    ∧ (∀ f0 rest, getVertexIncidentFaces (createTopology m) v = f0 :: rest →
        (walkAroundVertex (createTopology m) v st).head? = some (st.getD f0)
        ∧ WalkOk (createTopology m) v (getVertexIncidentFaces (createTopology m) v)
            [] (walkAroundVertex (createTopology m) v st)) := by
  refine ⟨?_, ?_, ?_⟩
  · intro extra
    unfold walkAroundVertexFuel walkAroundVertex
    rcases hinc : getVertexIncidentFaces (createTopology m) v with _ | ⟨f0, rest⟩
    · rfl
    · dsimp only
      apply walkAux_fuel_eq
      · have := notVisitedCount_le_length (f0 :: rest) ([] : List Nat)
        simp only [List.length_cons] at this ⊢
        omega
      · have := notVisitedCount_le_length (f0 :: rest) ([] : List Nat)
        simp only [List.length_cons] at this ⊢
        omega
      · right
        constructor
        · have := notVisitedCount_le_length (f0 :: rest) ([] : List Nat)
          simp only [List.length_cons] at this ⊢
          omega
        · have := notVisitedCount_le_length (f0 :: rest) ([] : List Nat)
          simp only [List.length_cons] at this ⊢
          omega
  · intro hinc
    unfold walkAroundVertex
    rw [hinc]
  · intro f0 rest hinc
    unfold walkAroundVertex
    rw [hinc]
    dsimp only
    rw [← hinc]
    apply walkAux_spec
    · simp
    · have := notVisitedCount_le_length (getVertexIncidentFaces (createTopology m) v)
        ([] : List Nat)
      omega
    · right
      have := notVisitedCount_le_length (getVertexIncidentFaces (createTopology m) v)
        ([] : List Nat)
      omega

/-- C5 witness: the walk around vertex `0` of the quad mesh from the default
start face. -/
theorem c5_witness :
    (0 : Nat) < getVertexCount (createTopology quadM)
    ∧ ((∀ extra, walkAroundVertexFuel (createTopology quadM) 0 none extra
        = walkAroundVertex (createTopology quadM) 0 none)
      ∧ (getVertexIncidentFaces (createTopology quadM) 0 = [] →
          walkAroundVertex (createTopology quadM) 0 none = [])
      ∧ (∀ f0 rest, getVertexIncidentFaces (createTopology quadM) 0 = f0 :: rest →
          (walkAroundVertex (createTopology quadM) 0 none).head? = some (Option.getD none f0)
          ∧ WalkOk (createTopology quadM) 0 (getVertexIncidentFaces (createTopology quadM) 0)
              [] (walkAroundVertex (createTopology quadM) 0 none))) :=
  ⟨by decide, c5_walkAroundVertex quadM 0 none (by decide)⟩

/-! ### C2: paths and distances in the vertex-adjacency graph -/

theorem isVPath_singleton (s : Engine) (a : Nat) : IsVPath s a a [a] :=
  ⟨rfl, rfl, List.chain'_singleton a⟩

theorem isVPath_ne_nil {s : Engine} {a b : Nat} {p : List Nat}
    (h : IsVPath s a b p) : p ≠ [] := by
  intro hnil
  rw [hnil] at h
  exact absurd h.1 (by simp)

theorem isVPath_extend {s : Engine} {a v n : Nat} {p : List Nat}
    (h : IsVPath s a v p) (hadj : Adjb s v n) : IsVPath s a n (p ++ [n]) := by
  obtain ⟨hh, hl, hc⟩ := h
  have hne : p ≠ [] := by
    intro hnil
    rw [hnil] at hh
    exact absurd hh (by simp)
  refine ⟨?_, ?_, ?_⟩
  · rw [List.head?_append_of_ne_nil _ hne]
    exact hh
  · exact List.getLast?_concat _
  · rw [List.chain'_append]
    refine ⟨hc, List.chain'_singleton n, ?_⟩
    intro x hx y hy
    rw [hl] at hx
    simp only [Option.mem_def, Option.some.injEq] at hx
    simp only [List.head?_cons, Option.mem_def, Option.some.injEq] at hy
    rw [← hx, ← hy]
    exact hadj

theorem isVPath_length_one {s : Engine} {a u : Nat} {p : List Nat}
    (h : IsVPath s a u p) (hlen : p.length = 1) : u = a := by
  obtain ⟨hh, hl, _⟩ := h
  rcases p with _ | ⟨x, t⟩
  · simp at hlen
  · rcases t with _ | ⟨y, t2⟩
    · simp only [List.head?_cons, Option.some.injEq] at hh
      simp only [List.getLast?_singleton, Option.some.injEq] at hl
      rw [← hl, hh]
    · simp at hlen

theorem exists_minLen {s : Engine} {a u : Nat} (h : Reaches s a u) :
    ∃ n, minLen s a u n := by
  obtain ⟨p, hp⟩ := h
  have hP : ∃ n, ∃ q, IsVPath s a u q ∧ q.length = n := ⟨p.length, p, hp, rfl⟩
  haveI : DecidablePred (fun n => ∃ q, IsVPath s a u q ∧ q.length = n) :=
    fun _ => Classical.dec _
  refine ⟨Nat.find hP, Nat.find_spec hP, ?_⟩
  intro q hq
  exact Nat.find_min' hP ⟨q, hq, rfl⟩

theorem minLen_unique {s : Engine} {a u n n' : Nat}
    (h : minLen s a u n) (h' : minLen s a u n') : n = n' := by
  obtain ⟨⟨p, hp, hlen⟩, hmin⟩ := h
  obtain ⟨⟨p', hp', hlen'⟩, hmin'⟩ := h'
  have h1 := hmin p' hp'
  have h2 := hmin' p hp
  omega

theorem minLen_pos {s : Engine} {a u n : Nat} (h : minLen s a u n) : 1 ≤ n := by
  obtain ⟨⟨p, hp, hlen⟩, _⟩ := h
  have := isVPath_ne_nil hp
  have : 0 < p.length := List.length_pos.mpr this
  omega

theorem minLen_pred {s : Engine} {a u n : Nat} (h : minLen s a u (n + 2)) :
    ∃ w, Adjb s w u ∧ minLen s a w (n + 1) := by
  obtain ⟨⟨p, hp, hlen⟩, hmin⟩ := h
  have hne : p ≠ [] := isVPath_ne_nil hp
  set q := p.dropLast with hq
  have hqlen : q.length = n + 1 := by
    rw [hq, List.length_dropLast, hlen]
    omega
  have hqne : q ≠ [] := by
    intro hnil
    rw [hnil] at hqlen
    simp at hqlen
  have hco : q ++ [p.getLast hne] = p := List.dropLast_append_getLast hne
  have hlastu : p.getLast hne = u := by
    obtain ⟨_, hl, _⟩ := hp
    rw [List.getLast?_eq_getLast p hne] at hl
    simpa using hl
  set w := q.getLast hqne with hw
  have hqpath : IsVPath s a w q := by
    obtain ⟨hh, hl, hc⟩ := hp
    refine ⟨?_, ?_, ?_⟩
    · rw [← hco, List.head?_append_of_ne_nil _ hqne] at hh
      exact hh
    · rw [hw, List.getLast?_eq_getLast q hqne]
    · rw [← hco, List.chain'_append] at hc
      exact hc.1
  have hadj : Adjb s w u := by
    obtain ⟨_, _, hc⟩ := hp
    rw [← hco, List.chain'_append] at hc
    have := hc.2.2 w (by simp [List.getLast?_eq_getLast q hqne, hw]) (p.getLast hne) (by simp)
    rw [hlastu] at this
    exact this
  obtain ⟨mw, hmw⟩ := exists_minLen ⟨q, hqpath⟩
  have hmw_le : mw ≤ n + 1 := by
    have := hmw.2 q hqpath
    omega
  have hmw_ge : n + 1 ≤ mw := by
    by_contra hlt
    push_neg at hlt
    obtain ⟨⟨r, hr, hrlen⟩, _⟩ := hmw
    have hext : IsVPath s a u (r ++ [u]) := by
      have := isVPath_extend hr hadj
      exact this
    have := hmin (r ++ [u]) hext
    rw [List.length_append, hrlen] at this
    simp at this
    omega
  have : mw = n + 1 := by omega
  rw [this] at hmw
  exact ⟨w, hadj, hmw⟩

theorem minLen_layer {s : Engine} {a : Nat} :
    ∀ n u, minLen s a u (n + 1) → ∀ k, k ≤ n → ∃ w, minLen s a w (k + 1) := by
  intro n
  induction n with
  | zero =>
    intro u h k hk
    have : k = 0 := by omega
    rw [this]
    exact ⟨u, h⟩
  | succ n ih =>
    intro u h k hk
    rcases Nat.lt_or_ge k (n + 1) with hlt | hge
    · obtain ⟨w, _, hw⟩ := minLen_pred h
      exact ih w hw k (by omega)
    · have : k = n + 1 := by omega
      rw [this]
      exact ⟨u, h⟩

/-! ### C2: preservation of the BFS invariant -/

theorem bfsInvAt_shift {s : Engine} {a b lvl : Nat} {B : List (Nat × List Nat)}
    {visited : List Nat} (h : BfsInvAt s a b lvl [] B visited) :
    BfsInvAt s a b (lvl + 1) B [] visited := by
  obtain ⟨hwalk, _, hlenB, hvd, hvc, hfc, hnc, hb⟩ := h
  refine ⟨?_, ?_, ?_, ?_, ?_, ?_, ?_, hb⟩
  · intro en hen
    apply hwalk
    simpa using (by simpa using hen : en ∈ B)
  · intro en hen
    exact hlenB en hen
  · intro en hen
    simp at hen
  · intro w hw
    obtain ⟨d, hd, hm⟩ := hvd w hw
    exact ⟨d, by omega, hm⟩
  · intro u d hd hm
    rcases Nat.lt_or_ge d lvl with hlt | hge
    · exact hvc u d hlt hm
    · have : d = lvl := by omega
      rw [this] at hm
      by_contra hnv
      obtain ⟨p, hp⟩ := hfc u hm hnv
      simp at hp
  · intro u hm hnv
    rcases hnc u hm hnv with ⟨p, hp⟩ | ⟨en, hen, _, _⟩
    · exact ⟨p, hp⟩
    · simp at hen
  · intro u hm hnv
    obtain ⟨w, hadj, hw⟩ := minLen_pred hm
    have hwnv : w ∉ visited := by
      intro hwv
      obtain ⟨d, hd, hm'⟩ := hvd w hwv
      have := minLen_unique hw hm'
      omega
    rcases hnc w hw hwnv with ⟨pw, hpw⟩ | ⟨en, hen, _, _⟩
    · exact Or.inr ⟨(w, pw), hpw, hwnv, hadj⟩
    · simp at hen

theorem bfsInv_cons {s : Engine} {a b v : Nat} {p : List Nat}
    {rest : List (Nat × List Nat)} {visited : List Nat}
    (h : BfsInv s a b ((v, p) :: rest) visited) :
    ∃ lvl A1 B, rest = A1 ++ B ∧ p.length = lvl + 1
      ∧ BfsInvAt s a b lvl ((v, p) :: A1) B visited := by
  obtain ⟨lvl, A, B, hq, hAt⟩ := h
  rcases A with _ | ⟨en, A1⟩
  · simp only [List.nil_append] at hq
    have hAt2 : BfsInvAt s a b lvl [] ((v, p) :: rest) visited := by
      rw [hq]
      exact hAt
    have hshift := bfsInvAt_shift hAt2
    refine ⟨lvl + 1, rest, [], by simp, ?_, hshift⟩
    have hmem : (v, p) ∈ (v, p) :: rest := by simp
    have := hAt2.2.2.1 _ hmem
    simpa using this
  · rw [List.cons_append] at hq
    have hen : en = (v, p) := by
      have h2 := congrArg List.head? hq
      simp only [List.head?_cons, Option.some.injEq] at h2
      exact h2.symm
    have hrest : rest = A1 ++ B := by
      have h2 := congrArg List.tail hq
      simpa using h2
    have hplen : p.length = lvl + 1 := by
      have := hAt.2.1 en (by simp)
      rw [hen] at this
      simpa using this
    rw [hen] at hAt
    exact ⟨lvl, A1, B, hrest, hplen, hAt⟩

theorem bfsInv_skip {s : Engine} {a b v : Nat} {p : List Nat}
    {rest : List (Nat × List Nat)} {visited : List Nat}
    (h : BfsInv s a b ((v, p) :: rest) visited) (hv : v ∈ visited) :
    BfsInv s a b rest visited := by
  obtain ⟨lvl, A1, B, hrest, _, hAt⟩ := bfsInv_cons h
  obtain ⟨hwalk, hlenA, hlenB, hvd, hvc, hfc, hnc, hb⟩ := hAt
  refine ⟨lvl, A1, B, hrest, ?_, ?_, hlenB, hvd, hvc, ?_, ?_, hb⟩
  · intro en hen
    apply hwalk
    rw [List.mem_append] at hen ⊢
    rcases hen with hen | hen
    · exact Or.inl (List.mem_cons_of_mem _ hen)
    · exact Or.inr hen
  · intro en hen
    exact hlenA en (List.mem_cons_of_mem _ hen)
  · intro u hm hnv
    obtain ⟨pu, hpu⟩ := hfc u hm hnv
    rcases List.mem_cons.mp hpu with heq | hmem
    · have : u = v := congrArg Prod.fst heq
      rw [this] at hnv
      exact absurd hv hnv
    · exact ⟨pu, hmem⟩
  · intro u hm hnv
    rcases hnc u hm hnv with hB | ⟨en, hen, hnv2, hadj⟩
    · exact Or.inl hB
    · rcases List.mem_cons.mp hen with heq | hmem
      · rw [heq] at hnv2
        exact absurd hv hnv2
      · exact Or.inr ⟨en, hmem, hnv2, hadj⟩

theorem bfsInv_found {s : Engine} {a b v : Nat} {p : List Nat}
    {rest : List (Nat × List Nat)} {visited : List Nat}
    (h : BfsInv s a b ((v, p) :: rest) visited) (hv : v ∉ visited) :
    IsVPath s a v p ∧ ∀ q, IsVPath s a v q → p.length ≤ q.length := by
  obtain ⟨lvl, A1, B, _, hplen, hAt⟩ := bfsInv_cons h
  obtain ⟨hwalk, _, _, _, hvc, _, _, _⟩ := hAt
  have hpath : IsVPath s a v p := by
    have := hwalk (v, p) (by simp)
    exact this
  refine ⟨hpath, ?_⟩
  obtain ⟨dm, hdm⟩ := exists_minLen ⟨p, hpath⟩
  have hdm_le : dm ≤ lvl + 1 := by
    have := hdm.2 p hpath
    omega
  have hdm_pos : 1 ≤ dm := minLen_pos hdm
  have hdm_eq : dm = lvl + 1 := by
    by_contra hne
    have hlt : dm - 1 < lvl := by omega
    have : minLen s a v (dm - 1 + 1) := by
      have : dm - 1 + 1 = dm := by omega
      rw [this]
      exact hdm
    have := hvc v (dm - 1) hlt this
    exact hv this
  intro q hq
  have := hdm.2 q hq
  omega

theorem bfsInv_expand {s : Engine} {a b v : Nat} {p : List Nat}
    {rest : List (Nat × List Nat)} {visited : List Nat}
    (h : BfsInv s a b ((v, p) :: rest) visited) (hv : v ∉ visited) (hvb : v ≠ b) :
    BfsInv s a b (rest ++ bfsChildren s v p visited) (v :: visited) := by
  obtain ⟨lvl, A1, B, hrest, hplen, hAt⟩ := bfsInv_cons h
  obtain ⟨hwalk, hlenA, hlenB, hvd, hvc, hfc, hnc, hb⟩ := hAt
  have hvpath : IsVPath s a v p := hwalk (v, p) (by simp)
  have hchild : ∀ en ∈ bfsChildren s v p visited,
      en.2 = p ++ [en.1] ∧ Adjb s v en.1 ∧ en.1 ∉ v :: visited := by
    intro en hen
    unfold bfsChildren at hen
    rw [List.mem_map] at hen
    obtain ⟨n, hn, hen⟩ := hen
    rw [List.mem_filter] at hn
    obtain ⟨hnmem, hnfil⟩ := hn
    rw [← hen]
    refine ⟨rfl, hnmem, by simpa using hnfil⟩
  refine ⟨lvl, A1, B ++ bfsChildren s v p visited, by rw [hrest, List.append_assoc],
    ?_, ?_, ?_, ?_, ?_, ?_, ?_, ?_⟩
  · intro en hen
    rw [List.mem_append, List.mem_append] at hen
    rcases hen with hen | hen | hen
    · exact hwalk en (by simp [hen])
    · exact hwalk en (by simp [hen])
    · obtain ⟨h2, hadj, _⟩ := hchild en hen
      rw [h2]
      exact isVPath_extend hvpath hadj
  · intro en hen
    exact hlenA en (List.mem_cons_of_mem _ hen)
  · intro en hen
    rw [List.mem_append] at hen
    rcases hen with hen | hen
    · exact hlenB en hen
    · obtain ⟨h2, _, _⟩ := hchild en hen
      rw [h2, List.length_append, hplen]
      simp
  · intro w hw
    rcases List.mem_cons.mp hw with rfl | hw
    · obtain ⟨dm, hdm⟩ := exists_minLen ⟨p, hvpath⟩
      have hle : dm ≤ lvl + 1 := by
        have := hdm.2 p hvpath
        omega
      have hpos : 1 ≤ dm := minLen_pos hdm
      refine ⟨dm - 1, by omega, ?_⟩
      have : dm - 1 + 1 = dm := by omega
      rw [this]
      exact hdm
    · exact hvd w hw
  · intro u d hd hm
    exact List.mem_cons_of_mem _ (hvc u d hd hm)
  · intro u hm hnv
    have hunv : u ∉ visited := fun hu => hnv (List.mem_cons_of_mem _ hu)
    have hune : u ≠ v := fun he => hnv (he ▸ List.mem_cons_self _ _)
    obtain ⟨pu, hpu⟩ := hfc u hm hunv
    rcases List.mem_cons.mp hpu with heq | hmem
    · exact absurd (congrArg Prod.fst heq) hune
    · exact ⟨pu, hmem⟩
  · intro u hm hnv
    have hunv : u ∉ visited := fun hu => hnv (List.mem_cons_of_mem _ hu)
    have hune : u ≠ v := fun he => hnv (he ▸ List.mem_cons_self _ _)
    rcases hnc u hm hunv with ⟨pu, hpu⟩ | ⟨en, hen, hennv, hadj⟩
    · exact Or.inl ⟨pu, by rw [List.mem_append]; exact Or.inl hpu⟩
    · by_cases henv : en.1 = v
      · left
        refine ⟨p ++ [u], ?_⟩
        rw [List.mem_append]
        right
        unfold bfsChildren
        rw [List.mem_map]
        refine ⟨u, ?_, rfl⟩
        rw [List.mem_filter]
        refine ⟨?_, by simpa using hnv⟩
        rw [← henv]
        exact hadj
      · rcases List.mem_cons.mp hen with heq | hmem
        · rw [heq] at henv
          simp at henv
        · refine Or.inr ⟨en, hmem, ?_, hadj⟩
          intro hc
          rcases List.mem_cons.mp hc with he | he
          · exact henv he
          · exact hennv he
  · intro hc
    rcases List.mem_cons.mp hc with he | he
    · exact hvb he.symm
    · exact hb he

theorem bfsInv_empty {s : Engine} {a b : Nat} {visited : List Nat}
    (h : BfsInv s a b [] visited) : ¬ Reaches s a b := by
  obtain ⟨lvl, A, B, hq, hAt⟩ := h
  have hA : A = [] := by
    rcases A with _ | _
    · rfl
    · simp at hq
  have hB : B = [] := by
    rw [hA] at hq
    simpa using hq.symm
  rw [hA, hB] at hAt
  obtain ⟨_, _, _, hvd, hvc, hfc, hnc, hb⟩ := hAt
  intro hre
  obtain ⟨dm, hdm⟩ := exists_minLen hre
  have hpos : 1 ≤ dm := minLen_pos hdm
  have hdm' : minLen s a b (dm - 1 + 1) := by
    have : dm - 1 + 1 = dm := by omega
    rw [this]
    exact hdm
  set d := dm - 1 with hd
  rcases Nat.lt_or_ge d lvl with hlt | hge
  · exact hb (hvc b d hlt hdm')
  rcases Nat.lt_or_ge d (lvl + 1) with hlt1 | hge1
  · have : d = lvl := by omega
    rw [this] at hdm'
    obtain ⟨pu, hpu⟩ := hfc b hdm' hb
    simp at hpu
  rcases Nat.lt_or_ge d (lvl + 2) with hlt2 | hge2
  · have : d = lvl + 1 := by omega
    rw [this] at hdm'
    rcases hnc b hdm' hb with ⟨pu, hpu⟩ | ⟨en, hen, _, _⟩
    · simp at hpu
    · simp at hen
  · obtain ⟨w, hw⟩ := minLen_layer d b hdm' (lvl + 1) (by omega)
    have hwnv : w ∉ visited := by
      intro hwv
      obtain ⟨d', hd', hm'⟩ := hvd w hwv
      have := minLen_unique hw hm'
      omega
    rcases hnc w hw hwnv with ⟨pu, hpu⟩ | ⟨en, hen, _, _⟩
    · simp at hpu
    · simp at hen

/-! ### C2: the BFS loop -/

theorem bfsAux_succ_nil (s : Engine) (bV fuel : Nat) (visited : List Nat) :
    bfsAux s bV (fuel + 1) [] visited = some none := rfl

theorem bfsAux_succ_cons (s : Engine) (bV fuel v : Nat) (p : List Nat)
    (rest : List (Nat × List Nat)) (visited : List Nat) :
    bfsAux s bV (fuel + 1) ((v, p) :: rest) visited =
      if v ∈ visited then bfsAux s bV fuel rest visited
      else if v = bV then some (some p)
      else bfsAux s bV fuel (rest ++ bfsChildren s v p visited) (v :: visited) := rfl

theorem bfs_run {s : Engine} {a b : Nat} :
    ∀ fuel (queue : List (Nat × List Nat)) (visited : List Nat)
      (r : Option (List Nat)),
    BfsInv s a b queue visited →
    bfsAux s b fuel queue visited = some r →
    (∀ p, r = some p → IsVPath s a b p
      ∧ ∀ q, IsVPath s a b q → p.length ≤ q.length)
    ∧ (r = none → ¬ Reaches s a b) := by
  intro fuel
  induction fuel with
  | zero =>
    intro queue visited r _ hrun
    exact absurd hrun (by simp [bfsAux])
  | succ fuel ih =>
    intro queue visited r hinv hrun
    rcases queue with _ | ⟨⟨v, p⟩, rest⟩
    · rw [bfsAux_succ_nil] at hrun
      have hr : r = none := by simpa using hrun.symm
      refine ⟨?_, ?_⟩
      · intro p' hp'
        rw [hr] at hp'
        exact absurd hp' (by simp)
      · intro _
        exact bfsInv_empty hinv
    · rw [bfsAux_succ_cons] at hrun
      by_cases hv : v ∈ visited
      · rw [if_pos hv] at hrun
        exact ih rest visited r (bfsInv_skip hinv hv) hrun
      · rw [if_neg hv] at hrun
        by_cases hvb : v = b
        · rw [if_pos hvb] at hrun
          have hr : r = some p := by simpa using hrun.symm
          obtain ⟨hpath, hmin⟩ := bfsInv_found hinv hv
          rw [hvb] at hpath hmin
          refine ⟨?_, ?_⟩
          · intro p' hp'
            rw [hr] at hp'
            have : p' = p := by simpa using hp'.symm
            rw [this]
            exact ⟨hpath, hmin⟩
          · intro hn
            rw [hr] at hn
            exact absurd hn (by simp)
        · rw [if_neg hvb] at hrun
          exact ih _ _ r (bfsInv_expand hinv hv hvb) hrun

/-! ### C2: the fuel bound suffices -/

theorem insertUniq_length_le (l : List Nat) (x : Nat) :
    (insertUniq l x).length ≤ l.length + 1 := by
  unfold insertUniq
  by_cases h : x ∈ l
  · rw [if_pos h]
    omega
  · rw [if_neg h]
    simp

theorem addNbrs_length_le (s : Engine) (v : Nat) (acc : List Nat) (f : Nat) :
    (addNbrs s v acc f).length ≤ acc.length + 3 := by
  unfold addNbrs
  rcases hfi : (getFaceVertices s f).findIdx? (fun x => decide (x = v)) with _ | pos
  · dsimp only
    omega
  · dsimp only
    have hr : List.range 3 = [0, 1, 2] := rfl
    rw [hr]
    simp only [List.foldl_cons, List.foldl_nil]
    have s0 : ∀ (acc2 : List Nat) (i : Nat),
        ((if i = pos then acc2
          else insertUniq acc2 ((getFaceVertices s f).getD i 0))).length
          ≤ acc2.length + 1 := by
      intro acc2 i
      by_cases hi : i = pos
      · rw [if_pos hi]; omega
      · rw [if_neg hi]
        exact insertUniq_length_le _ _
    have h0 := s0 acc 0
    have h1 := s0 (if 0 = pos then acc else insertUniq acc ((getFaceVertices s f).getD 0 0)) 1
    have h2 := s0 (if 1 = pos then (if 0 = pos then acc else insertUniq acc ((getFaceVertices s f).getD 0 0))
      else insertUniq (if 0 = pos then acc else insertUniq acc ((getFaceVertices s f).getD 0 0))
        ((getFaceVertices s f).getD 1 0)) 2
    omega

theorem foldl_addNbrs_length_le (s : Engine) (v : Nat) :
    ∀ (l : List Nat) (acc : List Nat),
    (l.foldl (addNbrs s v) acc).length ≤ acc.length + 3 * l.length := by
  intro l
  induction l with
  | nil => intro acc; simp
  | cons f t ih =>
    intro acc
    rw [List.foldl_cons]
    have h1 := ih (addNbrs s v acc f)
    have h2 := addNbrs_length_le s v acc f
    simp only [List.length_cons]
    omega

theorem incidentFaces_length_le (s : Engine) (v : Nat) :
    (getVertexIncidentFaces s v).length ≤ getFaceCount s := by
  unfold getVertexIncidentFaces
  have := List.length_filter_le (fun i => decide (v ∈ getFaceVertices s i))
    (List.range (getFaceCount s))
  simpa using this

theorem neighbors_length_le (s : Engine) (v : Nat) :
    (getVertexNeighbors s v).length ≤ 3 * getFaceCount s := by
  unfold getVertexNeighbors
  have h1 := foldl_addNbrs_length_le s v (getVertexIncidentFaces s v) []
  have h2 := incidentFaces_length_le s v
  simp only [List.length_nil] at h1
  omega

theorem mem_allFaceVerts {s : Engine} {f x : Nat} (hf : f < getFaceCount s)
    (hx : x ∈ getFaceVertices s f) : x ∈ allFaceVerts s := by
  unfold allFaceVerts
  have hgen : ∀ (l : List Nat), f ∈ l →
      x ∈ l.foldr (fun g acc => getFaceVertices s g ++ acc) [] := by
    intro l
    induction l with
    | nil => intro h; simp at h
    | cons g t ih =>
      intro hmem
      rw [List.foldr_cons, List.mem_append]
      rcases List.mem_cons.mp hmem with rfl | hmem
      · exact Or.inl hx
      · exact Or.inr (ih hmem)
  exact hgen _ (List.mem_range.mpr hf)

theorem insertUniq_mem {l : List Nat} {x y : Nat} (h : y ∈ insertUniq l x) :
    y ∈ l ∨ y = x := by
  unfold insertUniq at h
  by_cases hx : x ∈ l
  · rw [if_pos hx] at h
    exact Or.inl h
  · rw [if_neg hx] at h
    rw [List.mem_append] at h
    rcases h with h | h
    · exact Or.inl h
    · simp at h
      exact Or.inr h

theorem getD_mem_of_lt {l : List Nat} {i : Nat} (h : i < l.length) :
    l.getD i 0 ∈ l := by
  rw [List.getD_eq_getElem?_getD, List.getElem?_eq_getElem h]
  exact List.getElem_mem h

theorem addNbrs_mem_faceVerts {s : Engine} {v : Nat} {acc : List Nat} {f : Nat}
    {y : Nat} (hy : y ∈ addNbrs s v acc f) :
    y ∈ acc ∨ y ∈ getFaceVertices s f := by
  unfold addNbrs at hy
  rcases hfi : (getFaceVertices s f).findIdx? (fun x => decide (x = v)) with _ | pos
  · rw [hfi] at hy
    exact Or.inl hy
  · rw [hfi] at hy
    have hr : List.range 3 = [0, 1, 2] := rfl
    rw [hr] at hy
    simp only [List.foldl_cons, List.foldl_nil] at hy
    have hfv : ∀ i, i < 3 → (getFaceVertices s f).getD i 0 ∈ getFaceVertices s f := by
      intro i hi
      apply getD_mem_of_lt
      have : (getFaceVertices s f).length = 3 := faceVerts_length s.mesh f
      omega
    have step : ∀ (acc2 : List Nat) (i : Nat), i < 3 →
        y ∈ (if i = pos then acc2
          else insertUniq acc2 ((getFaceVertices s f).getD i 0)) →
        y ∈ acc2 ∨ y ∈ getFaceVertices s f := by
      intro acc2 i hi hmem
      by_cases hip : i = pos
      · rw [if_pos hip] at hmem
        exact Or.inl hmem
      · rw [if_neg hip] at hmem
        rcases insertUniq_mem hmem with h | h
        · exact Or.inl h
        · rw [h]
          exact Or.inr (hfv i hi)
    rcases step _ 2 (by omega) hy with h | h
    · rcases step _ 1 (by omega) h with h2 | h2
      · rcases step _ 0 (by omega) h2 with h3 | h3
        · exact Or.inl h3
        · exact Or.inr h3
      · exact Or.inr h2
    · exact Or.inr h

theorem neighbors_mem_allFaceVerts {s : Engine} {v y : Nat}
    (hy : y ∈ getVertexNeighbors s v) : y ∈ allFaceVerts s := by
  unfold getVertexNeighbors at hy
  have hgen : ∀ (l : List Nat) (acc : List Nat),
      (∀ z ∈ acc, z ∈ allFaceVerts s) →
      (∀ f ∈ l, f < getFaceCount s) →
      ∀ z ∈ l.foldl (addNbrs s v) acc, z ∈ allFaceVerts s := by
    intro l
    induction l with
    | nil =>
      intro acc hacc _ z hz
      exact hacc z hz
    | cons f t ih =>
      intro acc hacc hl z hz
      rw [List.foldl_cons] at hz
      refine ih (addNbrs s v acc f) ?_ ?_ z hz
      · intro z2 hz2
        rcases addNbrs_mem_faceVerts hz2 with h | h
        · exact hacc z2 h
        · exact mem_allFaceVerts (hl f (by simp)) h
      · intro g hg
        exact hl g (List.mem_cons_of_mem _ hg)
  refine hgen _ [] (by simp) ?_ y hy
  intro f hf
  unfold getVertexIncidentFaces at hf
  have := List.mem_of_mem_filter hf
  exact List.mem_range.mp this

theorem unvisitedCount_eq (s : Engine) (a : Nat) (visited : List Nat) :
    unvisitedCount s a visited = notVisitedCount (candVerts s a) visited := rfl

theorem bfsChildren_length_le (s : Engine) (v : Nat) (p : List Nat)
    (visited : List Nat) :
    (bfsChildren s v p visited).length ≤ 3 * getFaceCount s := by
  unfold bfsChildren
  rw [List.length_map]
  have h1 := List.length_filter_le (fun n => decide (n ∉ v :: visited))
    (getVertexNeighbors s v)
  have h2 := neighbors_length_le s v
  omega

theorem bfs_suf {s : Engine} {a b : Nat} :
    ∀ fuel (queue : List (Nat × List Nat)) (visited : List Nat),
    (∀ en ∈ queue, en.1 ∈ candVerts s a) →
    bfsMeasure s a queue visited < fuel →
    bfsAux s b fuel queue visited ≠ none := by
  intro fuel
  induction fuel with
  | zero => intro queue visited _ hm; omega
  | succ fuel ih =>
    intro queue visited hcand hm
    rcases queue with _ | ⟨⟨v, p⟩, rest⟩
    · rw [bfsAux_succ_nil]
      simp
    · rw [bfsAux_succ_cons]
      by_cases hv : v ∈ visited
      · rw [if_pos hv]
        apply ih
        · intro en hen
          exact hcand en (List.mem_cons_of_mem _ hen)
        · unfold bfsMeasure at hm ⊢
          simp only [List.length_cons] at hm
          omega
      · rw [if_neg hv]
        by_cases hvb : v = b
        · rw [if_pos hvb]
          simp
        · rw [if_neg hvb]
          apply ih
          · intro en hen
            rw [List.mem_append] at hen
            rcases hen with hen | hen
            · exact hcand en (List.mem_cons_of_mem _ hen)
            · unfold bfsChildren at hen
              rw [List.mem_map] at hen
              obtain ⟨n, hn, hen⟩ := hen
              rw [List.mem_filter] at hn
              rw [← hen]
              exact List.mem_cons_of_mem _ (neighbors_mem_allFaceVerts hn.1)
          · have hva : v ∈ candVerts s a := hcand (v, p) (by simp)
            have hU : unvisitedCount s a (v :: visited) + 1
                ≤ unvisitedCount s a visited := by
              rw [unvisitedCount_eq, unvisitedCount_eq]
              have := notVisitedCount_cons_lt (candVerts s a) visited hva hv
              omega
            have hmul : (3 * getFaceCount s + 1) * unvisitedCount s a (v :: visited)
                + (3 * getFaceCount s + 1)
                ≤ (3 * getFaceCount s + 1) * unvisitedCount s a visited := by
              calc (3 * getFaceCount s + 1) * unvisitedCount s a (v :: visited)
                  + (3 * getFaceCount s + 1)
                  = (3 * getFaceCount s + 1) * (unvisitedCount s a (v :: visited) + 1) := by
                    ring
                _ ≤ (3 * getFaceCount s + 1) * unvisitedCount s a visited :=
                    Nat.mul_le_mul_left _ hU
            have hch := bfsChildren_length_le s v p visited
            unfold bfsMeasure at hm ⊢
            rw [List.length_append]
            simp only [List.length_cons] at hm
            omega

theorem bfsInv_init (s : Engine) (a b : Nat) (hab : a ≠ b) :
    BfsInv s a b [(a, [a])] [] := by
  refine ⟨0, [(a, [a])], [], by simp, ?_, ?_, ?_, ?_, ?_, ?_, ?_, ?_⟩
  · intro en hen
    simp only [List.append_nil, List.mem_singleton] at hen
    rw [hen]
    exact isVPath_singleton s a
  · intro en hen
    simp only [List.mem_singleton] at hen
    rw [hen]
    rfl
  · intro en hen
    simp at hen
  · intro w hw
    simp at hw
  · intro u d hd _
    omega
  · intro u hm _
    obtain ⟨⟨p, hp, hlen⟩, _⟩ := hm
    have hua := isVPath_length_one hp hlen
    exact ⟨[a], by simp [hua]⟩
  · intro u hm _
    obtain ⟨w, hadj, hw⟩ := minLen_pred hm
    obtain ⟨⟨p, hp, hlen⟩, _⟩ := hw
    have hwa := isVPath_length_one hp hlen
    right
    refine ⟨(a, [a]), by simp, by simp, ?_⟩
    rw [← hwa]
    exact hadj
  · simp

/-- C2: `findShortestPath(start, end)` returns `[start]` when the endpoints
coincide; any returned path is a walk in the vertex-adjacency graph from
`start` to `end` of minimal node count (hence minimal edge count) among all
such walks; and the result is `none` exactly when `end` is unreachable from
`start`. -/
theorem c2_findShortestPath (m : Mesh) (a b : Nat)
    (ha : a < getVertexCount (createTopology m))
    (hb : b < getVertexCount (createTopology m)) :
    (a = b → findShortestPath (createTopology m) a b = some [a])
    ∧ (∀ p, findShortestPath (createTopology m) a b = some p →
        IsVPath (createTopology m) a b p
        ∧ ∀ q, IsVPath (createTopology m) a b q → p.length ≤ q.length)
    ∧ (findShortestPath (createTopology m) a b = none
        ↔ ¬ Reaches (createTopology m) a b) := by
  set s := createTopology m with hs
  by_cases hab : a = b
  · subst hab
    have hfsp : findShortestPath s a a = some [a] := by
      unfold findShortestPath
      rw [if_pos rfl]
    refine ⟨fun _ => hfsp, ?_, ?_⟩
    · intro p hp
      rw [hfsp] at hp
      have hpa : p = [a] := by simpa using hp.symm
      rw [hpa]
      refine ⟨isVPath_singleton s a, ?_⟩
      intro q hq
      have := List.length_pos.mpr (isVPath_ne_nil hq)
      simpa using this
    · rw [hfsp]
      exact iff_of_false (by simp) (fun h => h ⟨[a], isVPath_singleton s a⟩)
  · have hcand : ∀ en ∈ [((a : Nat), [a])], (en : Nat × List Nat).1 ∈ candVerts s a := by
      intro en hen
      simp only [List.mem_singleton] at hen
      rw [hen]
      exact List.mem_cons_self _ _
    have hfil : ((candVerts s a).filter
        (fun x => decide (x ∉ ([] : List Nat)))).length = (candVerts s a).length := by
      have hfun : (fun (x : Nat) => decide (x ∉ ([] : List Nat))) = fun _ => true := by
        funext x
        simp
      rw [hfun, List.filter_true]
    have hmeas : bfsMeasure s a [(a, [a])] [] < bfsFuel s a := by
      unfold bfsMeasure bfsFuel unvisitedCount
      rw [hfil]
      simp only [List.length_singleton]
      omega
    have hres := bfs_suf (b := b) (bfsFuel s a) [(a, [a])] [] hcand hmeas
    obtain ⟨r, hr⟩ := Option.ne_none_iff_exists'.mp hres
    have hrun := bfs_run (bfsFuel s a) _ _ r (bfsInv_init s a b hab) hr
    have hfsp : findShortestPath s a b = r := by
      unfold findShortestPath
      rw [if_neg hab, hr]
    refine ⟨fun h => absurd h hab, ?_, ?_⟩
    · intro p hp
      rw [hfsp] at hp
      exact hrun.1 p hp
    · rw [hfsp]
      constructor
      · exact fun h => hrun.2 h
      · intro hnre
        rcases hrr : r with _ | p
        · rfl
        · obtain ⟨hpath, _⟩ := hrun.1 p hrr
          exact absurd ⟨p, hpath⟩ hnre

/-- C2 witness: the shortest path from vertex `1` to vertex `3` on the quad
mesh (a two-hop path through `0` or `2`). -/
theorem c2_witness :
    (1 : Nat) < getVertexCount (createTopology quadM)
    ∧ (3 : Nat) < getVertexCount (createTopology quadM)
    ∧ ((1 = 3 → findShortestPath (createTopology quadM) 1 3 = some [1])
      ∧ (∀ p, findShortestPath (createTopology quadM) 1 3 = some p →
          IsVPath (createTopology quadM) 1 3 p
          ∧ ∀ q, IsVPath (createTopology quadM) 1 3 q → p.length ≤ q.length)
      ∧ (findShortestPath (createTopology quadM) 1 3 = none
          ↔ ¬ Reaches (createTopology quadM) 1 3)) :=
  ⟨by decide, by decide, c2_findShortestPath quadM 1 3 (by decide) (by decide)⟩
